import Mathlib

/-! # Verification of the Nucleus unified-diff parser

Shallow embedding of `parseDiff` from `src/client/components/DiffView.tsx`
(lines 21-134) together with the data model it produces, and theorems
settling the specification's claims about it.

The source is a single left-to-right scan over `raw.split('\n')`:

* an outer `while` loop that skips lines until one starts with
  `diff --git`, which opens a file section (lines 26-31);
* within a file section: path extraction from the header regex
  (lines 35-39), a metadata-skip loop (lines 43-53), optional
  consumption of a `--- ` line and a `+++ ` line with a path override
  (lines 55-65), and a hunk loop (lines 70-126);
* inside the hunk loop, a hunk starts at a line beginning with `@@`
  (range regex, lines 73-77) and its body extends to the next line
  beginning with `@@` or `diff --git` (lines 82-120); any other line met
  by the hunk loop is skipped (line 124).

Every sub-loop of the scan stops at a line starting with `diff --git`,
and the hunk-body loop additionally stops at `@@`, so the scan is
equivalent to splitting the line list at the `diff --git` marker lines
into file sections, and splitting a section's post-path remainder at the
`@@` marker lines into hunk regions.  The embedding uses that
decomposition (the `sections` function below) so that every definition
is structurally recursive; `sections_reconstruct` proves the
decomposition exact.
-/

namespace Nucleus

/-- A line of the input, as produced by `raw.split('\n')`. -/
abbrev Line := List Char

/-- Characters matched by `.` in a JavaScript regex without the `s` flag:
everything except the four line terminators. -/
def isDot (c : Char) : Bool :=
  !(c == '\n' || c == '\r' || c.toNat == 8232 || c.toNat == 8233)

/-- Model of `String.prototype.startsWith`: `startsWithL pat l` is true
iff `pat` is a prefix of `l`. -/
def startsWithL : List Char → List Char → Bool
  | [], _ => true
  | _ :: _, [] => false
  | p :: ps, c :: cs => p == c && startsWithL ps cs

/-- Shorthand: does line `l` start with the literal `pat`? -/
def sw (pat : String) (l : Line) : Bool := startsWithL pat.data l

/-- Model of `raw.split('\n')` (line 23 of the source): split at every
newline character; the result is always non-empty. -/
def splitNl : List Char → List (List Char)
  | [] => [[]]
  | c :: cs =>
    if c == '\n' then [] :: splitNl cs
    else
      match splitNl cs with
      | l :: ls => (c :: l) :: ls
      | [] => [[c]]

/-- The four line classifications of the source's `DiffLine.type`
(line 15 of the source). -/
inductive LineKind
  | add
  | remove
  | context
  | noNewline
  deriving DecidableEq, Repr

/-- One parsed line of a hunk (source interface `DiffLine`, lines 14-19). -/
structure DiffLine where
  kind : LineKind
  content : Line
  oldLineNo : Option Nat
  newLineNo : Option Nat
  deriving DecidableEq, Repr

/-- One parsed hunk (source interface `DiffHunk`, lines 9-12). -/
structure DiffHunk where
  header : Line
  lines : List DiffLine
  deriving DecidableEq, Repr

/-- One parsed file section (source interface `DiffFile`, lines 3-7). -/
structure DiffFile where
  header : Line
  filePath : Line
  hunks : List DiffHunk
  deriving DecidableEq, Repr

/-- Value of `parseInt(ds, 10)` on a non-empty string of decimal digits
(the only shape the range regex can capture). -/
def digitsToNat (ds : Line) : Nat :=
  ds.foldl (fun a c => a * 10 + (c.toNat - 48)) 0

/-! ## The header regex `/diff --git a\/(.+?) b\/(.+)/` (source line 36)

The regex is unanchored; the engine tries each start position left to
right, and a match must begin with the literal `diff --git a/`.  After
the literal, the lazy group `(.+?)` takes the shortest non-empty run of
`.`-characters (no line terminators) that is followed by the literal
` b/` and at least one further `.`-character; the greedy `(.+)` then
captures the maximal `.`-run after ` b/`.  Only capture 2 is used by the
source (line 38). -/

/-- Scan for the earliest position (lazy `(.+?)`) at which ` b/` is
followed by a `.`-character; the characters walked over become group 1
and must all be `.`-characters.  Returns capture 2, the maximal
`.`-run after ` b/`. -/
def scanB : Line → Option Line
  | [] => none
  | c :: cs =>
    if startsWithL " b/".data (c :: cs)
        && (match (c :: cs).drop 3 with
            | [] => false
            | d :: _ => isDot d) then
      some (((c :: cs).drop 3).takeWhile isDot)
    else if isDot c then scanB cs
    else none

/-- Attempt the part of the header regex after the literal
`diff --git a/`: group 1 needs at least one `.`-character. -/
def headerTail (t : Line) : Option Line :=
  match t with
  | [] => none
  | c :: cs => if isDot c then scanB cs else none

/-- Full unanchored search for the header regex; returns capture 2 of
the leftmost match, as used at source line 38. -/
def headerSearch : Line → Option Line
  | [] => none
  | c :: cs =>
    match (if startsWithL "diff --git a/".data (c :: cs) then
             headerTail ((c :: cs).drop 13)
           else none) with
    | some r => some r
    | none => headerSearch cs

/-- Model of `line.match(/^\+\+\+ b\/(.+)/)` (source line 60): anchored
at the start, then `(.+)` greedily captures the maximal non-empty
`.`-run. -/
def plusCapture (l : Line) : Option Line :=
  if sw "+++ b/" l && !((l.drop 6).takeWhile isDot).isEmpty then
    some ((l.drop 6).takeWhile isDot)
  else none

/-! ## The range regex `/@@ -(\d+)(?:,\d+)? \+(\d+)(?:,\d+)? @@/`
(source lines 73-75)

Unanchored search.  At a fixed start position the match is
deterministic: each `\d+` must take its maximal digit run (giving a
digit back leaves a digit where a non-digit literal is required), and
each optional `(?:,\d+)?` group is taken exactly when the next
character is a comma (skipping it then requires a space where the comma
stands, which fails).  The source keeps only the two start captures
(lines 76-77); the declared lengths are modelled too so that claims
about them can be stated. -/

/-- Parse the optional `(?:,\d+)?` group at the current position. -/
def commaLen (l : Line) : Option (Option Nat × Line) :=
  match l with
  | ',' :: r =>
    if (r.takeWhile Char.isDigit).isEmpty then none
    else some (some (digitsToNat (r.takeWhile Char.isDigit)), r.dropWhile Char.isDigit)
  | _ => some (none, l)

/-- Attempt the range regex at this exact position; on success return
(old start, old length?, new start, new length?). -/
def rangeAt (l : Line) : Option (Nat × Option Nat × Nat × Option Nat) :=
  if startsWithL "@@ -".data l then
    if (((l.drop 4).takeWhile Char.isDigit).isEmpty : Bool) then none
    else
      match commaLen ((l.drop 4).dropWhile Char.isDigit) with
      | none => none
      | some (len1, t2) =>
        if startsWithL " +".data t2 then
          if (((t2.drop 2).takeWhile Char.isDigit).isEmpty : Bool) then none
          else
            match commaLen ((t2.drop 2).dropWhile Char.isDigit) with
            | none => none
            | some (len2, t4) =>
              if startsWithL " @@".data t4 then
                some (digitsToNat ((l.drop 4).takeWhile Char.isDigit), len1,
                      digitsToNat ((t2.drop 2).takeWhile Char.isDigit), len2)
              else none
        else none
  else none

/-- Leftmost-match search for the range regex over the hunk header. -/
def rangeSearch : Line → Option (Nat × Option Nat × Nat × Option Nat)
  | [] => none
  | c :: cs =>
    match rangeAt (c :: cs) with
    | some r => some r
    | none => rangeSearch cs

/-- Starting line numbers of a hunk (source lines 76-77): the two start
captures of the range regex, each defaulting to 1 when the regex fails
to match. -/
def startNums (hdr : Line) : Nat × Nat :=
  match rangeSearch hdr with
  | some (a, _, b, _) => (a, b)
  | none => (1, 1)

/-- Classify one hunk-body line and advance the two counters, exactly as
source lines 89-118: `+` gives an add line consuming `newLine++`; `-`
gives a remove line consuming `oldLine++`; a `\ No newline` marker
keeps the raw line and touches neither counter; anything else is a
context line consuming both, with one leading space stripped if
present. -/
def classifyLine (l : Line) (o n : Nat) : DiffLine × Nat × Nat :=
  if sw "+" l then (⟨.add, l.drop 1, none, some n⟩, o, n + 1)
  else if sw "-" l then (⟨.remove, l.drop 1, some o, none⟩, o + 1, n)
  else if sw "\\ No newline" l then (⟨.noNewline, l, none, none⟩, o, n)
  else (⟨.context, if sw " " l then l.drop 1 else l, some o, some n⟩, o + 1, n + 1)

/-- Run the hunk-body loop (source lines 82-120) over the body lines,
threading the two counters. -/
def hunkLines : List Line → Nat → Nat → List DiffLine
  | [], _, _ => []
  | l :: ls, o, n =>
    let r := classifyLine l o n
    r.1 :: hunkLines ls r.2.1 r.2.2

/-- Split a line list at its marker lines: returns the lines before the
first marker and, for each marker line, the marker together with the
lines following it up to the next marker.  This is the decomposition
performed implicitly by the source's scan loops, whose every sub-loop
stops exactly at a marker line. -/
def sections (p : Line → Bool) : List Line → List Line × List (Line × List Line)
  | [] => ([], [])
  | l :: ls =>
    let r := sections p ls
    if p l then ([], (l, r.1) :: r.2) else (l :: r.1, r.2)

/-- Build one hunk from its header line and body region
(source lines 72-122). -/
def mkHunk (hdr : Line) (body : List Line) : DiffHunk :=
  ⟨hdr, hunkLines body (startNums hdr).1 (startNums hdr).2⟩

/-- Condition of the metadata-skip loop (source lines 43-53): a line is
skipped while it starts with none of the five markers. -/
def isMeta (l : Line) : Bool :=
  !sw "diff --git" l && !sw "@@" l && !sw "--- " l && !sw "+++ " l && !sw "Binary " l

/-- The metadata-skip loop (source lines 43-53). -/
def afterMeta (ls : List Line) : List Line := ls.dropWhile isMeta

/-- Consume the optional `--- ` line (source lines 56-58). -/
def afterDashes (ls : List Line) : List Line :=
  match ls with
  | l :: r => if sw "--- " l then r else l :: r
  | [] => []

/-- Consume the optional `+++ ` line, overriding the file path when the
line matches `+++ b/<path>` (source lines 59-65). -/
def plusStep (fp0 : Line) (ls : List Line) : Line × List Line :=
  match ls with
  | l :: r =>
    if sw "+++ " l then
      (match plusCapture l with
       | some p => p
       | none => fp0, r)
    else (fp0, l :: r)
  | [] => (fp0, [])

/-- The header-derived candidate path (source lines 35-39): capture 2 of
the header regex, or the empty string when the regex fails. -/
def headerPath (h : Line) : Line :=
  match headerSearch h with
  | some p => p
  | none => []

/-- File path and remaining lines of a file section once the header,
metadata, `--- ` and `+++ ` lines have been processed
(source lines 35-65). -/
def pathAndRest (h : Line) (ls : List Line) : Line × List Line :=
  plusStep (headerPath h) (afterDashes (afterMeta ls))

/-- Hunk regions of a file section: the section's remainder after path
processing, split at its `@@` marker lines.  Lines before the first
`@@` are the ones the hunk loop skips one by one (source line 124). -/
def hunkRegions (h : Line) (ls : List Line) : List (Line × List Line) :=
  (sections (fun l => sw "@@" l) (pathAndRest h ls).2).2

/-- Process one file section (source lines 33-131): the section is kept
only when its resolved file path is non-empty (source line 128). -/
def parseFileSection (h : Line) (ls : List Line) : Option DiffFile :=
  if (pathAndRest h ls).1.isEmpty then none
  else some ⟨h, (pathAndRest h ls).1, (hunkRegions h ls).map (fun s => mkHunk s.1 s.2)⟩

/-- File sections of the input: the line list split at its `diff --git`
marker lines; lines before the first marker are skipped by the outer
loop (source lines 26-31). -/
def fileSections (ls : List Line) : List (Line × List Line) :=
  (sections (fun l => sw "diff --git" l) ls).2

/-- The whole parser (source lines 21-134). -/
def parseDiffLines (ls : List Line) : List DiffFile :=
  (fileSections ls).filterMap (fun s => parseFileSection s.1 s.2)

/-- Model of `parseDiff(raw)` over an arbitrary input string. -/
def parseDiff (raw : String) : List DiffFile :=
  parseDiffLines (splitNl raw.data)

/-! ## Derived observations used to state the claims -/

/-- Classification a raw body line receives from `classifyLine`
(independent of the counters). -/
def kindOf (l : Line) : LineKind := (classifyLine l 0 0).1.kind

/-- Content a raw body line receives from `classifyLine`. -/
def contentOf (l : Line) : Line := (classifyLine l 0 0).1.content

/-- Does this body line consume the old-side counter (remove or context)? -/
def consumesOld (l : Line) : Bool := (classifyLine l 0 0).1.oldLineNo.isSome

/-- Does this body line consume the new-side counter (add or context)? -/
def consumesNew (l : Line) : Bool := (classifyLine l 0 0).1.newLineNo.isSome

/-- Is a parsed line a remove or context line? -/
def isRC (d : DiffLine) : Bool :=
  match d.kind with
  | .remove => true
  | .context => true
  | _ => false

/-- Is a parsed line an add or context line? -/
def isAC (d : DiffLine) : Bool :=
  match d.kind with
  | .add => true
  | .context => true
  | _ => false

/-- The `oldLineNo` values of the remove and context lines of a hunk, in
encounter order. -/
def oldNos (ds : List DiffLine) : List Nat :=
  (ds.filter isRC).filterMap DiffLine.oldLineNo

/-- The `newLineNo` values of the add and context lines of a hunk, in
encounter order. -/
def newNos (ds : List DiffLine) : List Nat :=
  (ds.filter isAC).filterMap DiffLine.newLineNo

/-! ## Basic lemmas about the scanning primitives -/

theorem startsWithL_append (p t : List Char) : startsWithL p (p ++ t) = true := by
  induction p with
  | nil => rfl
  | cons c cs ih => simp [startsWithL, ih]

theorem startsWithL_of_append_left {p q l : List Char}
    (h : startsWithL (p ++ q) l = true) : startsWithL p l = true := by
  induction p generalizing l with
  | nil => rfl
  | cons c cs ih =>
    cases l with
    | nil => simp [startsWithL] at h
    | cons d ds =>
      simp only [List.cons_append, startsWithL, Bool.and_eq_true] at h ⊢
      exact ⟨h.1, ih h.2⟩

theorem startsWithL_iff {p l : List Char} :
    startsWithL p l = true ↔ ∃ t, l = p ++ t := by
  induction p generalizing l with
  | nil => simp [startsWithL]
  | cons c cs ih =>
    cases l with
    | nil =>
      simp only [startsWithL, List.cons_append]
      constructor
      · intro h; cases h
      · rintro ⟨t, ht⟩; cases ht
    | cons d ds =>
      simp only [startsWithL, Bool.and_eq_true, beq_iff_eq, List.cons_append, ih]
      constructor
      · rintro ⟨rfl, t, rfl⟩; exact ⟨t, rfl⟩
      · rintro ⟨t, ht⟩
        injection ht with h1 h2
        exact ⟨h1.symm, t, h2⟩

theorem takeWhile_append_of_all {p : Char → Bool} {a : List Char} {c : Char}
    (r : List Char) (ha : ∀ x ∈ a, p x = true) (hc : p c = false) :
    (a ++ c :: r).takeWhile p = a := by
  induction a with
  | nil => simp [List.takeWhile, hc]
  | cons x xs ih =>
    have hx := ha x (List.mem_cons_self x xs)
    simp only [List.cons_append, List.takeWhile_cons, hx, if_true]
    rw [ih (fun y hy => ha y (List.mem_cons_of_mem x hy))]

theorem dropWhile_append_of_all {p : Char → Bool} {a : List Char} {c : Char}
    (r : List Char) (ha : ∀ x ∈ a, p x = true) (hc : p c = false) :
    (a ++ c :: r).dropWhile p = c :: r := by
  induction a with
  | nil => simp [List.dropWhile, hc]
  | cons x xs ih =>
    have hx := ha x (List.mem_cons_self x xs)
    simp only [List.cons_append, List.dropWhile_cons, hx, if_true]
    exact ih (fun y hy => ha y (List.mem_cons_of_mem x hy))

theorem takeWhile_of_all {p : Char → Bool} {a : List Char}
    (ha : ∀ x ∈ a, p x = true) : a.takeWhile p = a := by
  induction a with
  | nil => rfl
  | cons x xs ih =>
    simp only [List.takeWhile_cons, ha x (List.mem_cons_self x xs), if_true]
    rw [ih (fun y hy => ha y (List.mem_cons_of_mem x hy))]

/-! ## Lemmas about the marker-split decomposition -/

theorem sections_reconstruct (p : Line → Bool) (ls : List Line) :
    (sections p ls).1 ++ ((sections p ls).2.map (fun s => s.1 :: s.2)).flatten = ls := by
  induction ls with
  | nil => rfl
  | cons l ls ih =>
    by_cases h : p l
    · simp [sections, h, ih]
    · simp only [Bool.not_eq_true] at h
      simp [sections, h, ih]

theorem sections_pre_no_marker (p : Line → Bool) (ls : List Line) :
    ∀ x ∈ (sections p ls).1, p x = false := by
  induction ls with
  | nil => intro x hx; cases hx
  | cons l ls ih =>
    intro x hx
    by_cases h : p l
    · simp [sections, h] at hx
    · simp only [Bool.not_eq_true] at h
      simp only [sections, h, Bool.false_eq_true, if_false, List.mem_cons] at hx
      rcases hx with rfl | hx
      · exact h
      · exact ih x hx

theorem sections_body_no_marker (p : Line → Bool) (ls : List Line) :
    ∀ s ∈ (sections p ls).2, p s.1 = true ∧ ∀ x ∈ s.2, p x = false := by
  induction ls with
  | nil => intro s hs; cases hs
  | cons l ls ih =>
    intro s hs
    by_cases h : p l
    · simp only [sections, h, if_true, List.mem_cons] at hs
      rcases hs with rfl | hs
      · exact ⟨h, sections_pre_no_marker p ls⟩
      · exact ih s hs
    · simp only [Bool.not_eq_true] at h
      simp only [sections, h, Bool.false_eq_true, if_false] at hs
      exact ih s hs

theorem sections_no_marker (p : Line → Bool) (ls : List Line)
    (h : ∀ x ∈ ls, p x = false) : sections p ls = (ls, []) := by
  induction ls with
  | nil => rfl
  | cons l ls ih =>
    have hl := h l (List.mem_cons_self l ls)
    simp [sections, ih (fun y hy => h y (List.mem_cons_of_mem l hy)), hl]

/-! ## Lemmas about the regex models -/

theorem scanB_ne_nil {l q : Line} (h : scanB l = some q) : q ≠ [] := by
  induction l with
  | nil => cases h
  | cons c cs ih =>
    by_cases hb : (startsWithL " b/".data (c :: cs)
        && (match (c :: cs).drop 3 with
            | [] => false
            | d :: _ => isDot d)) = true
    · rw [scanB, if_pos hb] at h
      have hd : ∃ d t, (c :: cs).drop 3 = d :: t ∧ isDot d = true := by
        rcases Bool.and_eq_true .. |>.mp hb with ⟨_, h2⟩
        cases hdr : (c :: cs).drop 3 with
        | nil => rw [hdr] at h2; cases h2
        | cons d t => rw [hdr] at h2; exact ⟨d, t, rfl, h2⟩
      rcases hd with ⟨d, t, hdt, hdot⟩
      rw [hdt] at h
      simp only [List.takeWhile_cons, hdot, if_true, Option.some.injEq] at h
      intro hq
      rw [← h] at hq
      cases hq
    · rw [scanB, if_neg hb] at h
      by_cases hc : isDot c = true
      · rw [if_pos hc] at h
        exact ih h
      · rw [if_neg hc] at h
        cases h

theorem headerTail_ne_nil {t q : Line} (h : headerTail t = some q) : q ≠ [] := by
  unfold headerTail at h
  split at h
  · cases h
  · split at h
    · exact scanB_ne_nil h
    · cases h

theorem headerSearch_ne_nil {l q : Line} (h : headerSearch l = some q) : q ≠ [] := by
  induction l with
  | nil => cases h
  | cons c cs ih =>
    rw [headerSearch] at h
    split at h
    · rename_i r hr
      cases h
      split at hr
      · exact headerTail_ne_nil hr
      · cases hr
    · exact ih h

theorem plusCapture_ne_nil {l q : Line} (h : plusCapture l = some q) : q ≠ [] := by
  unfold plusCapture at h
  by_cases hc : (sw "+++ b/" l && !((l.drop 6).takeWhile isDot).isEmpty) = true
  · rw [if_pos hc] at h
    cases h
    rcases Bool.and_eq_true .. |>.mp hc with ⟨_, h2⟩
    intro hq
    rw [hq] at h2
    cases h2
  · rw [if_neg hc] at h
    cases h

theorem plusCapture_sw {l q : Line} (h : plusCapture l = some q) : sw "+++ " l = true := by
  unfold plusCapture at h
  by_cases hc : (sw "+++ b/" l && !((l.drop 6).takeWhile isDot).isEmpty) = true
  · rcases Bool.and_eq_true .. |>.mp hc with ⟨h1, _⟩
    have : "+++ b/".data = "+++ ".data ++ "b/".data := by decide
    unfold sw at h1 ⊢
    rw [this] at h1
    exact startsWithL_of_append_left h1
  · rw [if_neg hc] at h
    cases h

/-! ## Lemmas about the hunk-body loop -/

theorem hunkLines_length (ls : List Line) (o n : Nat) :
    (hunkLines ls o n).length = ls.length := by
  induction ls generalizing o n with
  | nil => rfl
  | cons l ls ih => simp [hunkLines, ih]

theorem classifyLine_plus {l : Line} (h : sw "+" l = true) (o n : Nat) :
    classifyLine l o n = (⟨.add, l.drop 1, none, some n⟩, o, n + 1) := by
  unfold classifyLine
  rw [if_pos h]

theorem classifyLine_minus {l : Line} (h1 : sw "+" l = false) (h2 : sw "-" l = true)
    (o n : Nat) :
    classifyLine l o n = (⟨.remove, l.drop 1, some o, none⟩, o + 1, n) := by
  unfold classifyLine
  rw [if_neg (by simp [h1]), if_pos h2]

theorem classifyLine_nonl {l : Line} (h1 : sw "+" l = false) (h2 : sw "-" l = false)
    (h3 : sw "\\ No newline" l = true) (o n : Nat) :
    classifyLine l o n = (⟨.noNewline, l, none, none⟩, o, n) := by
  unfold classifyLine
  rw [if_neg (by simp [h1]), if_neg (by simp [h2]), if_pos h3]

theorem classifyLine_ctx {l : Line} (h1 : sw "+" l = false) (h2 : sw "-" l = false)
    (h3 : sw "\\ No newline" l = false) (o n : Nat) :
    classifyLine l o n =
      (⟨.context, if sw " " l then l.drop 1 else l, some o, some n⟩, o + 1, n + 1) := by
  unfold classifyLine
  rw [if_neg (by simp [h1]), if_neg (by simp [h2]), if_neg (by simp [h3])]

theorem classifyLine_kind (l : Line) (o n : Nat) :
    (classifyLine l o n).1.kind = kindOf l := by
  unfold kindOf
  cases h1 : sw "+" l with
  | true => rw [classifyLine_plus h1, classifyLine_plus h1]
  | false =>
    cases h2 : sw "-" l with
    | true => rw [classifyLine_minus h1 h2, classifyLine_minus h1 h2]
    | false =>
      cases h3 : sw "\\ No newline" l with
      | true => rw [classifyLine_nonl h1 h2 h3, classifyLine_nonl h1 h2 h3]
      | false => rw [classifyLine_ctx h1 h2 h3, classifyLine_ctx h1 h2 h3]

theorem classifyLine_content (l : Line) (o n : Nat) :
    (classifyLine l o n).1.content = contentOf l := by
  unfold contentOf
  cases h1 : sw "+" l with
  | true => rw [classifyLine_plus h1, classifyLine_plus h1]
  | false =>
    cases h2 : sw "-" l with
    | true => rw [classifyLine_minus h1 h2, classifyLine_minus h1 h2]
    | false =>
      cases h3 : sw "\\ No newline" l with
      | true => rw [classifyLine_nonl h1 h2 h3, classifyLine_nonl h1 h2 h3]
      | false => rw [classifyLine_ctx h1 h2 h3, classifyLine_ctx h1 h2 h3]

theorem hunkLines_map_kind (ls : List Line) (o n : Nat) :
    (hunkLines ls o n).map DiffLine.kind = ls.map kindOf := by
  induction ls generalizing o n with
  | nil => rfl
  | cons l ls ih => simp [hunkLines, ih, classifyLine_kind]

theorem hunkLines_map_content (ls : List Line) (o n : Nat) :
    (hunkLines ls o n).map DiffLine.content = ls.map contentOf := by
  induction ls generalizing o n with
  | nil => rfl
  | cons l ls ih => simp [hunkLines, ih, classifyLine_content]

theorem consumesOld_eq (l : Line) (o n : Nat) :
    (if consumesOld l then 1 else 0) =
      (if ((classifyLine l o n).1.oldLineNo).isSome = true then 1 else 0) := by
  unfold consumesOld
  cases h1 : sw "+" l with
  | true => simp [classifyLine_plus h1]
  | false =>
    cases h2 : sw "-" l with
    | true => simp [classifyLine_minus h1 h2]
    | false =>
      cases h3 : sw "\\ No newline" l with
      | true => simp [classifyLine_nonl h1 h2 h3]
      | false => simp [classifyLine_ctx h1 h2 h3]

theorem hunkLines_oldNos (ls : List Line) (o n : Nat) :
    oldNos (hunkLines ls o n) = List.range' o (ls.countP consumesOld) := by
  induction ls generalizing o n with
  | nil => rfl
  | cons l ls ih =>
    rw [hunkLines, List.countP_cons]
    unfold oldNos at ih ⊢
    cases h1 : sw "+" l with
    | true =>
      rw [classifyLine_plus h1]
      simp only [List.filter_cons, isRC, consumesOld, classifyLine_plus h1]
      simpa using ih o (n + 1)
    | false =>
      cases h2 : sw "-" l with
      | true =>
        rw [classifyLine_minus h1 h2]
        simp only [List.filter_cons, isRC, consumesOld, classifyLine_minus h1 h2]
        simp only [if_true, List.filterMap_cons]
        rw [ih (o + 1) n]
        simp [List.range'_succ]
      | false =>
        cases h3 : sw "\\ No newline" l with
        | true =>
          rw [classifyLine_nonl h1 h2 h3]
          simp only [List.filter_cons, isRC, consumesOld, classifyLine_nonl h1 h2 h3]
          simpa using ih o n
        | false =>
          rw [classifyLine_ctx h1 h2 h3]
          simp only [List.filter_cons, isRC, consumesOld, classifyLine_ctx h1 h2 h3]
          simp only [if_true, List.filterMap_cons]
          rw [ih (o + 1) (n + 1)]
          simp [List.range'_succ]

theorem hunkLines_newNos (ls : List Line) (o n : Nat) :
    newNos (hunkLines ls o n) = List.range' n (ls.countP consumesNew) := by
  induction ls generalizing o n with
  | nil => rfl
  | cons l ls ih =>
    rw [hunkLines, List.countP_cons]
    unfold newNos at ih ⊢
    cases h1 : sw "+" l with
    | true =>
      rw [classifyLine_plus h1]
      simp only [List.filter_cons, isAC, consumesNew, classifyLine_plus h1]
      simp only [if_true, List.filterMap_cons]
      rw [ih o (n + 1)]
      simp [List.range'_succ]
    | false =>
      cases h2 : sw "-" l with
      | true =>
        rw [classifyLine_minus h1 h2]
        simp only [List.filter_cons, isAC, consumesNew, classifyLine_minus h1 h2]
        simpa using ih (o + 1) n
      | false =>
        cases h3 : sw "\\ No newline" l with
        | true =>
          rw [classifyLine_nonl h1 h2 h3]
          simp only [List.filter_cons, isAC, consumesNew, classifyLine_nonl h1 h2 h3]
          simpa using ih o n
        | false =>
          rw [classifyLine_ctx h1 h2 h3]
          simp only [List.filter_cons, isAC, consumesNew, classifyLine_ctx h1 h2 h3]
          simp only [if_true, List.filterMap_cons]
          rw [ih (o + 1) (n + 1)]
          simp [List.range'_succ]

theorem hunkLines_countRC (ls : List Line) (o n : Nat) :
    (hunkLines ls o n).countP isRC = ls.countP consumesOld := by
  induction ls generalizing o n with
  | nil => rfl
  | cons l ls ih =>
    rw [hunkLines, List.countP_cons, List.countP_cons]
    cases h1 : sw "+" l with
    | true =>
      rw [classifyLine_plus h1]
      simp only [isRC, consumesOld, classifyLine_plus h1]
      simpa using ih o (n + 1)
    | false =>
      cases h2 : sw "-" l with
      | true =>
        rw [classifyLine_minus h1 h2]
        simp only [isRC, consumesOld, classifyLine_minus h1 h2]
        simpa using ih (o + 1) n
      | false =>
        cases h3 : sw "\\ No newline" l with
        | true =>
          rw [classifyLine_nonl h1 h2 h3]
          simp only [isRC, consumesOld, classifyLine_nonl h1 h2 h3]
          simpa using ih o n
        | false =>
          rw [classifyLine_ctx h1 h2 h3]
          simp only [isRC, consumesOld, classifyLine_ctx h1 h2 h3]
          simpa using ih (o + 1) (n + 1)

theorem hunkLines_countAC (ls : List Line) (o n : Nat) :
    (hunkLines ls o n).countP isAC = ls.countP consumesNew := by
  induction ls generalizing o n with
  | nil => rfl
  | cons l ls ih =>
    rw [hunkLines, List.countP_cons, List.countP_cons]
    cases h1 : sw "+" l with
    | true =>
      rw [classifyLine_plus h1]
      simp only [isAC, consumesNew, classifyLine_plus h1]
      simpa using ih o (n + 1)
    | false =>
      cases h2 : sw "-" l with
      | true =>
        rw [classifyLine_minus h1 h2]
        simp only [isAC, consumesNew, classifyLine_minus h1 h2]
        simpa using ih (o + 1) n
      | false =>
        cases h3 : sw "\\ No newline" l with
        | true =>
          rw [classifyLine_nonl h1 h2 h3]
          simp only [isAC, consumesNew, classifyLine_nonl h1 h2 h3]
          simpa using ih o n
        | false =>
          rw [classifyLine_ctx h1 h2 h3]
          simp only [isAC, consumesNew, classifyLine_ctx h1 h2 h3]
          simpa using ih (o + 1) (n + 1)

theorem hunkLines_context_some (ls : List Line) (o n : Nat) :
    ∀ d ∈ hunkLines ls o n, d.kind = LineKind.context →
      d.oldLineNo.isSome = true ∧ d.newLineNo.isSome = true := by
  induction ls generalizing o n with
  | nil => intro d hd; cases hd
  | cons l ls ih =>
    intro d hd hk
    rw [hunkLines] at hd
    rcases List.mem_cons.mp hd with rfl | hd
    · revert hk
      cases h1 : sw "+" l with
      | true => rw [classifyLine_plus h1]; intro hk; cases hk
      | false =>
        cases h2 : sw "-" l with
        | true => rw [classifyLine_minus h1 h2]; intro hk; cases hk
        | false =>
          cases h3 : sw "\\ No newline" l with
          | true => rw [classifyLine_nonl h1 h2 h3]; intro hk; cases hk
          | false => rw [classifyLine_ctx h1 h2 h3]; intro _; exact ⟨rfl, rfl⟩
    · exact ih _ _ d hd hk

theorem sections_length_le (p : Line → Bool) (ls : List Line) :
    (sections p ls).2.length ≤ ls.length := by
  induction ls with
  | nil => simp [sections]
  | cons l ls ih =>
    by_cases h : p l
    · simp only [sections, h, if_true, List.length_cons]
      exact Nat.succ_le_succ ih
    · simp only [Bool.not_eq_true] at h
      simp only [sections, h, Bool.false_eq_true, if_false, List.length_cons]
      exact Nat.le_succ_of_le ih

theorem startsWithL_extend {p q : List Char} (hpq : startsWithL p q = true)
    (t : List Char) : startsWithL p (q ++ t) = true := by
  rcases startsWithL_iff.mp hpq with ⟨u, rfl⟩
  rw [List.append_assoc]
  exact startsWithL_append p (u ++ t)

theorem startsWithL_ne_head {p c : Char} (ps cs : List Char)
    (hne : (p == c) = false) : startsWithL (p :: ps) (c :: cs) = false := by
  simp [startsWithL, hne]

theorem sw_plus_shape {b : Line} (hb : sw "+" b = true) : ∃ t, b = '+' :: t := by
  rcases startsWithL_iff.mp hb with ⟨t, ht⟩
  exact ⟨t, ht⟩

theorem sections_body_mem (p : Line → Bool) (ls : List Line) :
    ∀ s ∈ (sections p ls).2, ∀ x ∈ s.2, x ∈ ls := by
  induction ls with
  | nil => intro s hs; cases hs
  | cons l ls ih =>
    intro s hs x hx
    by_cases h : p l
    · simp only [sections, h, if_true, List.mem_cons] at hs
      rcases hs with rfl | hs
      · exact List.mem_cons_of_mem l (sections_reconstruct p ls ▸
          List.mem_append_left _ hx)
      · exact List.mem_cons_of_mem l (ih s hs x hx)
    · simp only [Bool.not_eq_true] at h
      simp only [sections, h, Bool.false_eq_true, if_false] at hs
      exact List.mem_cons_of_mem l (ih s hs x hx)

theorem afterMeta_sublist (ls : List Line) : List.Sublist (afterMeta ls) ls :=
  List.dropWhile_sublist _

theorem afterDashes_sublist (ls : List Line) : List.Sublist (afterDashes ls) ls := by
  cases ls with
  | nil => exact List.Sublist.refl _
  | cons l r =>
    show (if sw "--- " l = true then r else l :: r).Sublist (l :: r)
    by_cases h : sw "--- " l
    · rw [if_pos h]
      exact List.sublist_cons_self l r
    · rw [if_neg h]

theorem plusStep_sublist (fp : Line) (ls : List Line) :
    List.Sublist (plusStep fp ls).2 ls := by
  cases ls with
  | nil => exact List.Sublist.refl _
  | cons l r =>
    show (if sw "+++ " l = true then
        ((match plusCapture l with
          | some p => p
          | none => fp), r)
      else (fp, l :: r)).2.Sublist (l :: r)
    by_cases h : sw "+++ " l
    · rw [if_pos h]
      exact List.sublist_cons_self l r
    · rw [if_neg h]

theorem plusStep_nil (fp : Line) : plusStep fp [] = (fp, []) := rfl

theorem plusStep_cons (fp l : Line) (r : List Line) :
    plusStep fp (l :: r) =
      if sw "+++ " l then
        ((match plusCapture l with
          | some p => p
          | none => fp), r)
      else (fp, l :: r) := rfl

theorem pathAndRest_sublist (h : Line) (ls : List Line) :
    List.Sublist (pathAndRest h ls).2 ls := by
  unfold pathAndRest
  exact ((plusStep_sublist _ _).trans (afterDashes_sublist _)).trans
    (afterMeta_sublist ls)

theorem afterDashes_cons (l : Line) (r : List Line) :
    afterDashes (l :: r) = if sw "--- " l then r else l :: r := rfl

theorem sections_cons (p : Line → Bool) (l : Line) (ls : List Line) :
    sections p (l :: ls) =
      if p l then ([], (l, (sections p ls).1) :: (sections p ls).2)
      else (l :: (sections p ls).1, (sections p ls).2) := rfl

theorem rangeSearch_of_rangeAt {l : Line} {r : Nat × Option Nat × Nat × Option Nat}
    (h : rangeAt l = some r) : rangeSearch l = some r := by
  cases l with
  | nil =>
    rw [show rangeAt [] = none from rfl] at h
    cases h
  | cons c cs => rw [rangeSearch, h]

theorem sw_diff_cons (c : Char) (t : List Char) (hc : (('d' : Char) == c) = false) :
    sw "diff --git" (c :: t) = false := by
  show startsWithL "diff --git".data (c :: t) = false
  rw [show "diff --git".data = 'd' :: "iff --git".data from rfl]
  exact startsWithL_ne_head _ _ hc

theorem sw_atat_cons (c : Char) (t : List Char) (hc : (('@' : Char) == c) = false) :
    sw "@@" (c :: t) = false := by
  show startsWithL "@@".data (c :: t) = false
  rw [show "@@".data = '@' :: "@".data from rfl]
  exact startsWithL_ne_head _ _ hc

theorem hunkLines_all_plus :
    ∀ (bs : List Line), (∀ b ∈ bs, sw "+" b = true) → ∀ (o n : Nat),
      hunkLines bs o n =
        List.zipWith (fun b k => DiffLine.mk .add (b.drop 1) none (some k)) bs
          (List.range' n bs.length)
  | [], _, _, _ => rfl
  | b :: bs, hbs, o, n => by
    rw [hunkLines, classifyLine_plus (hbs b (List.mem_cons_self b bs))]
    dsimp only
    rw [hunkLines_all_plus bs (fun x hx => hbs x (List.mem_cons_of_mem b hx)) o (n + 1)]
    rw [List.length_cons, List.range'_succ]
    rfl

theorem rangeAt_untracked (ds : Line) (hds : ds ≠ [])
    (hdsd : ∀ c ∈ ds, c.isDigit = true) :
    rangeAt ("@@ -0,0 +1,".data ++ (ds ++ " @@".data)) =
      some (0, some 0, 1, some (digitsToNat ds)) := by
  have hdse : ds.isEmpty = false := by
    cases ds with
    | nil => exact absurd rfl hds
    | cons c cs => rfl
  have e3 : ((ds ++ " @@".data).takeWhile Char.isDigit) = ds :=
    takeWhile_append_of_all _ hdsd (by decide)
  have e4 : ((ds ++ " @@".data).dropWhile Char.isDigit) = " @@".data :=
    dropWhile_append_of_all _ hdsd (by decide)
  unfold rangeAt
  rw [if_pos (show startsWithL "@@ -".data
    ("@@ -0,0 +1,".data ++ (ds ++ " @@".data)) = true from rfl)]
  rw [show (("@@ -0,0 +1,".data ++ (ds ++ " @@".data)).drop 4) =
    "0,0 +1,".data ++ (ds ++ " @@".data) from rfl]
  rw [show ("0,0 +1,".data ++ (ds ++ " @@".data)).takeWhile Char.isDigit =
    ['0'] from rfl]
  rw [if_neg (by decide : ¬((['0'] : List Char).isEmpty = true))]
  rw [show ("0,0 +1,".data ++ (ds ++ " @@".data)).dropWhile Char.isDigit =
    ",0 +1,".data ++ (ds ++ " @@".data) from rfl]
  rw [show commaLen (",0 +1,".data ++ (ds ++ " @@".data)) =
    some (some 0, " +1,".data ++ (ds ++ " @@".data)) from rfl]
  dsimp only
  rw [if_pos (show startsWithL " +".data
    (" +1,".data ++ (ds ++ " @@".data)) = true from rfl)]
  rw [show ((" +1,".data ++ (ds ++ " @@".data)).drop 2) =
    "1,".data ++ (ds ++ " @@".data) from rfl]
  rw [show ("1,".data ++ (ds ++ " @@".data)).takeWhile Char.isDigit =
    ['1'] from rfl]
  rw [if_neg (by decide : ¬((['1'] : List Char).isEmpty = true))]
  rw [show ("1,".data ++ (ds ++ " @@".data)).dropWhile Char.isDigit =
    ',' :: (ds ++ " @@".data) from rfl]
  rw [show commaLen (',' :: (ds ++ " @@".data)) =
    (if (((ds ++ " @@".data).takeWhile Char.isDigit).isEmpty : Bool) then none
     else some (some (digitsToNat ((ds ++ " @@".data).takeWhile Char.isDigit)),
       (ds ++ " @@".data).dropWhile Char.isDigit)) from rfl]
  rw [e3, e4]
  rw [if_neg (by rw [hdse]; exact Bool.false_ne_true)]
  dsimp only
  rw [if_pos (show startsWithL " @@".data " @@".data = true by decide)]
  rfl

/-! ## Shape of the parser's output -/

theorem parseFileSection_eq_some {h : Line} {ls : List Line} {f : DiffFile}
    (hf : parseFileSection h ls = some f) :
    (pathAndRest h ls).1.isEmpty = false ∧
      f = ⟨h, (pathAndRest h ls).1, (hunkRegions h ls).map (fun s => mkHunk s.1 s.2)⟩ := by
  unfold parseFileSection at hf
  split at hf
  · cases hf
  · rename_i hne
    cases hf
    exact ⟨by simpa using hne, rfl⟩

theorem mem_parseDiffLines {ls : List Line} {f : DiffFile}
    (hf : f ∈ parseDiffLines ls) :
    ∃ s ∈ fileSections ls, parseFileSection s.1 s.2 = some f := by
  unfold parseDiffLines at hf
  rcases List.mem_filterMap.mp hf with ⟨s, hs, he⟩
  exact ⟨s, hs, he⟩

theorem mem_hunks_shape {ls : List Line} {f : DiffFile} {h : DiffHunk}
    (hf : f ∈ parseDiffLines ls) (hh : h ∈ f.hunks) :
    ∃ body, h.lines = hunkLines body (startNums h.header).1 (startNums h.header).2 := by
  rcases mem_parseDiffLines hf with ⟨s, _, he⟩
  rcases parseFileSection_eq_some he with ⟨_, rfl⟩
  simp only [List.mem_map] at hh
  rcases hh with ⟨t, _, rfl⟩
  exact ⟨t.2, rfl⟩

/-! ## The claims -/

/-- C1: on the concrete 9-line example diff, `parseDiff` returns exactly
one `DiffFile` with path `note.md` containing one hunk whose lines are,
in order: context `# Hello` (old 1, new 1), remove `old line` (old 2),
add `new line` (new 2), add `added line` (new 3). -/
theorem claim1_concrete_example :
    parseDiff "diff --git a/note.md b/note.md\nindex abc123..def456 100644\n--- a/note.md\n+++ b/note.md\n@@ -1,2 +1,3 @@\n # Hello\n-old line\n+new line\n+added line" =
      [{ header := "diff --git a/note.md b/note.md".data
         filePath := "note.md".data
         hunks := [{ header := "@@ -1,2 +1,3 @@".data
                     lines := [
                       { kind := .context, content := "# Hello".data,
                         oldLineNo := some 1, newLineNo := some 1 },
                       { kind := .remove, content := "old line".data,
                         oldLineNo := some 2, newLineNo := none },
                       { kind := .add, content := "new line".data,
                         oldLineNo := none, newLineNo := some 2 },
                       { kind := .add, content := "added line".data,
                         oldLineNo := none, newLineNo := some 3 }] }] }] := by
  decide

/-- C2: in every hunk of every parsed file, the `oldLineNo` values of the
remove and context lines are strictly increasing in encounter order and
the first one equals the header's declared old start (1 when the range
regex fails to match), and symmetrically for the `newLineNo` values of
the add and context lines against the declared new start. -/
theorem claim2_line_numbers_monotone (raw : String) (f : DiffFile) (h : DiffHunk)
    (hf : f ∈ parseDiff raw) (hh : h ∈ f.hunks) :
    List.Pairwise (· < ·) (oldNos h.lines) ∧
    (∀ x, (oldNos h.lines).head? = some x → x = (startNums h.header).1) ∧
    List.Pairwise (· < ·) (newNos h.lines) ∧
    (∀ x, (newNos h.lines).head? = some x → x = (startNums h.header).2) := by
  rcases mem_hunks_shape hf hh with ⟨body, hb⟩
  rw [hb, hunkLines_oldNos, hunkLines_newNos]
  refine ⟨List.pairwise_lt_range' _ _, ?_, List.pairwise_lt_range' _ _, ?_⟩
  · intro x hx
    rw [List.head?_range'] at hx
    split at hx
    · cases hx
    · cases hx; rfl
  · intro x hx
    rw [List.head?_range'] at hx
    split at hx
    · cases hx
    · cases hx; rfl

theorem claim2_witness :
    (List.Pairwise (· < ·)
      (oldNos (DiffHunk.mk "@@ -5,2 +7,2 @@".data
        [⟨.context, ['a'], some 5, some 7⟩, ⟨.context, ['b'], some 6, some 8⟩]).lines) ∧
    (∀ x, (oldNos (DiffHunk.mk "@@ -5,2 +7,2 @@".data
        [⟨.context, ['a'], some 5, some 7⟩,
          ⟨.context, ['b'], some 6, some 8⟩]).lines).head? = some x →
      x = (startNums ("@@ -5,2 +7,2 @@".data : Line)).1) ∧
    List.Pairwise (· < ·)
      (newNos (DiffHunk.mk "@@ -5,2 +7,2 @@".data
        [⟨.context, ['a'], some 5, some 7⟩, ⟨.context, ['b'], some 6, some 8⟩]).lines) ∧
    (∀ x, (newNos (DiffHunk.mk "@@ -5,2 +7,2 @@".data
        [⟨.context, ['a'], some 5, some 7⟩,
          ⟨.context, ['b'], some 6, some 8⟩]).lines).head? = some x →
      x = (startNums ("@@ -5,2 +7,2 @@".data : Line)).2)) :=
  claim2_line_numbers_monotone "diff --git a/x b/x\n@@ -5,2 +7,2 @@\n a\n b"
    (DiffFile.mk "diff --git a/x b/x".data ['x']
      [DiffHunk.mk "@@ -5,2 +7,2 @@".data
        [⟨.context, ['a'], some 5, some 7⟩, ⟨.context, ['b'], some 6, some 8⟩]])
    (DiffHunk.mk "@@ -5,2 +7,2 @@".data
      [⟨.context, ['a'], some 5, some 7⟩, ⟨.context, ['b'], some 6, some 8⟩])
    (by decide) (by decide)

/-- C4: every `DiffFile` in the parser's output has a non-empty
`filePath`, and a file section whose resolved path is empty is omitted
from the collection (it yields `none`, not an error). -/
theorem claim4_nonempty_path :
    (∀ (raw : String) (f : DiffFile), f ∈ parseDiff raw → f.filePath ≠ []) ∧
    (∀ (h : Line) (ls : List Line),
      (pathAndRest h ls).1 = [] → parseFileSection h ls = none) := by
  constructor
  · intro raw f hf
    rcases mem_parseDiffLines hf with ⟨s, _, he⟩
    rcases parseFileSection_eq_some he with ⟨hne, rfl⟩
    intro hnil
    simp only [DiffFile.filePath] at hnil
    rw [hnil] at hne
    cases hne
  · intro h ls hp
    unfold parseFileSection
    rw [hp]
    rfl

theorem claim4_witness :
    (DiffFile.mk "diff --git a/x b/x".data ['x'] []).filePath ≠ [] ∧
      parseFileSection [] [] = none :=
  ⟨claim4_nonempty_path.1 "diff --git a/x b/x"
      (DiffFile.mk "diff --git a/x b/x".data ['x'] []) (by decide),
    claim4_nonempty_path.2 [] [] (by decide)⟩

/-- C7: the empty string parses to the empty collection, and more
generally any input none of whose lines starts with `diff --git` parses
to the empty collection. -/
theorem claim7_no_marker_empty :
    parseDiff "" = [] ∧
    ∀ raw : String,
      (∀ l ∈ splitNl raw.data, sw "diff --git" l = false) → parseDiff raw = [] := by
  constructor
  · rfl
  · intro raw hno
    unfold parseDiff parseDiffLines fileSections
    rw [sections_no_marker _ _ hno]
    rfl

theorem claim7_witness : parseDiff "hello\nworld" = [] :=
  claim7_no_marker_empty.2 "hello\nworld" (by decide)

/-- C8: the parser is a total function of its input; in particular every
file it emits consumes at least the input line holding that file's
`diff --git` header, so the output size is bounded by the number of
input lines (every loop iteration of the source advances the scan). -/
theorem claim8_total_bounded (raw : String) :
    (parseDiff raw).length ≤ (splitNl raw.data).length := by
  unfold parseDiff parseDiffLines
  exact Nat.le_trans (List.length_filterMap_le _ _)
    (sections_length_le _ (splitNl raw.data))

/-- C3, counterexample: the claim that a hunk's remove+context count
always equals the header's declared old length fails on a truncated
hunk: this input declares lengths 5,5 but has an empty body, so both
counts are 0. -/
theorem claim3_counterexample :
    ∃ f ∈ parseDiff "diff --git a/x b/x\n@@ -1,5 +1,5 @@", ∃ h ∈ f.hunks,
      rangeSearch h.header = some (1, some 5, 1, some 5) ∧
      ¬(h.lines.countP isRC = 5) ∧ ¬(h.lines.countP isAC = 5) :=
  ⟨DiffFile.mk "diff --git a/x b/x".data ['x'] [DiffHunk.mk "@@ -1,5 +1,5 @@".data []],
    by decide,
    DiffHunk.mk "@@ -1,5 +1,5 @@".data [], by decide,
    by decide, by decide, by decide⟩

/-- C3, amended: for every hunk region of the parse whose header
declares explicit lengths, the parsed remove+context count equals the
declared old length and the add+context count the declared new length
PROVIDED the region's body actually contains that many old-side
(resp. new-side) lines; unconditionally the parsed counts equal the
body's classification counts, which the parser never checks against the
declared lengths. -/
theorem claim3_amended (raw : String) (s t : Line × List Line)
    (hs : s ∈ fileSections (splitNl raw.data)) (ht : t ∈ hunkRegions s.1 s.2)
    (a b c d : Nat)
    (hr : rangeSearch t.1 = some (a, some b, c, some d))
    (hob : t.2.countP consumesOld = b) (hnd : t.2.countP consumesNew = d) :
    (mkHunk t.1 t.2).lines.countP isRC = b ∧
      (mkHunk t.1 t.2).lines.countP isAC = d := by
  unfold mkHunk
  exact ⟨by rw [hunkLines_countRC, hob], by rw [hunkLines_countAC, hnd]⟩

theorem claim3_witness :
    (mkHunk "@@ -1,2 +1,3 @@".data [" a".data, "-b".data, "+c".data, "+d".data]).lines.countP
        isRC = 2 ∧
      (mkHunk "@@ -1,2 +1,3 @@".data
        [" a".data, "-b".data, "+c".data, "+d".data]).lines.countP isAC = 3 :=
  claim3_amended "diff --git a/x b/x\n@@ -1,2 +1,3 @@\n a\n-b\n+c\n+d"
    ("diff --git a/x b/x".data,
      ["@@ -1,2 +1,3 @@".data, " a".data, "-b".data, "+c".data, "+d".data])
    ("@@ -1,2 +1,3 @@".data, [" a".data, "-b".data, "+c".data, "+d".data])
    (by decide) (by decide) 1 2 1 3 (by decide) (by decide) (by decide)

/-- C5: when the line found after the metadata lines and the optional
`--- ` line matches `+++ b/<path>`, the section's file path is that
capture, overriding the header-derived path; when that position holds
no `+++ ` line at all, the file path is the header-derived one (capture
2 of the `diff --git a/<p1> b/<p2>` pattern). -/
theorem claim5_path_preference (h : Line) (ls : List Line) :
    (∀ (l : Line) (r : List Line) (p : Line),
      afterDashes (afterMeta ls) = l :: r → plusCapture l = some p →
        (pathAndRest h ls).1 = p) ∧
    ((∀ (l : Line) (r : List Line), afterDashes (afterMeta ls) = l :: r →
        sw "+++ " l = false) →
      (pathAndRest h ls).1 = headerPath h) := by
  constructor
  · intro l r p hld hp
    unfold pathAndRest
    rw [hld, plusStep_cons, if_pos (plusCapture_sw hp), hp]
  · intro hno
    unfold pathAndRest
    cases hq : afterDashes (afterMeta ls) with
    | nil => rw [plusStep_nil]
    | cons l r =>
      rw [plusStep_cons,
        if_neg (by rw [hno l r hq]; exact Bool.false_ne_true)]

theorem claim5_witness :
    (pathAndRest "diff --git a/a b/a".data ["--- a/a".data, "+++ b/b".data]).1 =
        ['b'] ∧
      (pathAndRest "diff --git a/a b/c".data
          ["--- a/a".data, "index 1..2 100644".data]).1 =
        headerPath "diff --git a/a b/c".data :=
  ⟨(claim5_path_preference "diff --git a/a b/a".data
        ["--- a/a".data, "+++ b/b".data]).1
      "+++ b/b".data [] ['b'] (by decide) (by decide),
    (claim5_path_preference "diff --git a/a b/c".data
        ["--- a/a".data, "index 1..2 100644".data]).2
      (by intro l r hlr; cases hlr; decide)⟩

/-- C9: every line of a hunk's body region (the input lines strictly
between the `@@` header and the next `@@` or `diff --git` marker, none
of which is itself a marker) produces exactly one `DiffLine`, in input
order: the counts agree, the kinds and contents are the pointwise
classification of the body lines, any body line starting with none of
`+`, `-`, `\ No newline` is classified context, and every context line
carries both line numbers. -/
theorem claim9_body_classification (raw : String) (s t : Line × List Line)
    (hs : s ∈ fileSections (splitNl raw.data)) (ht : t ∈ hunkRegions s.1 s.2) :
    (∀ x ∈ t.2, sw "@@" x = false ∧ sw "diff --git" x = false) ∧
    (mkHunk t.1 t.2).lines.length = t.2.length ∧
    (mkHunk t.1 t.2).lines.map DiffLine.kind = t.2.map kindOf ∧
    (mkHunk t.1 t.2).lines.map DiffLine.content = t.2.map contentOf ∧
    (∀ x ∈ t.2, sw "+" x = false → sw "-" x = false →
      sw "\\ No newline" x = false → kindOf x = LineKind.context) ∧
    (∀ d ∈ (mkHunk t.1 t.2).lines, d.kind = LineKind.context →
      d.oldLineNo.isSome = true ∧ d.newLineNo.isSome = true) := by
  refine ⟨?_, hunkLines_length _ _ _, hunkLines_map_kind _ _ _,
    hunkLines_map_content _ _ _, ?_, hunkLines_context_some _ _ _⟩
  · intro x hx
    constructor
    · exact (sections_body_no_marker _ _ t ht).2 x hx
    · have hx2 : x ∈ (pathAndRest s.1 s.2).2 :=
        sections_body_mem _ _ t ht x hx
      have hx3 : x ∈ s.2 := (pathAndRest_sublist s.1 s.2).mem hx2
      exact (sections_body_no_marker _ _ s hs).2 x hx3
  · intro x _ h1 h2 h3
    unfold kindOf
    rw [classifyLine_ctx h1 h2 h3]

theorem claim9_witness :
    ((∀ x ∈ [['z']], sw "@@" x = false ∧ sw "diff --git" x = false) ∧
    (mkHunk "@@ -1 +1 @@".data [['z']]).lines.length = [['z']].length ∧
    (mkHunk "@@ -1 +1 @@".data [['z']]).lines.map DiffLine.kind = [['z']].map kindOf ∧
    (mkHunk "@@ -1 +1 @@".data [['z']]).lines.map DiffLine.content =
      [['z']].map contentOf ∧
    (∀ x ∈ [['z']], sw "+" x = false → sw "-" x = false →
      sw "\\ No newline" x = false → kindOf x = LineKind.context) ∧
    (∀ d ∈ (mkHunk "@@ -1 +1 @@".data [['z']]).lines, d.kind = LineKind.context →
      d.oldLineNo.isSome = true ∧ d.newLineNo.isSome = true)) :=
  claim9_body_classification "diff --git a/x b/x\n@@ -1 +1 @@\nz"
    ("diff --git a/x b/x".data, ["@@ -1 +1 @@".data, ['z']])
    ("@@ -1 +1 @@".data, [['z']]) (by decide) (by decide)

/-- C10: a `+++ ` line at the path position that does not match
`+++ b/<path>` (for example `+++ /dev/null`) is consumed without
changing the file path, so when the `diff --git` header's second path
was captured the section is still emitted as a `DiffFile` carrying that
header-derived path. -/
theorem claim10_nonmatching_plus (h : Line) (ls : List Line) (l : Line)
    (r : List Line) (hld : afterDashes (afterMeta ls) = l :: r)
    (hsw : sw "+++ " l = true) (hpc : plusCapture l = none)
    (p2 : Line) (hh : headerSearch h = some p2) :
    pathAndRest h ls = (p2, r) ∧
    ∃ f, parseFileSection h ls = some f ∧ f.filePath = p2 := by
  have hfp : pathAndRest h ls = (p2, r) := by
    unfold pathAndRest
    rw [hld, plusStep_cons, if_pos hsw, hpc]
    unfold headerPath
    rw [hh]
  have hne : p2.isEmpty = false := by
    cases hp2 : p2 with
    | nil => exact absurd hp2 (headerSearch_ne_nil hh)
    | cons c cs => rfl
  refine ⟨hfp, ⟨h, p2, (hunkRegions h ls).map (fun s => mkHunk s.1 s.2)⟩, ?_, rfl⟩
  unfold parseFileSection
  rw [hfp]
  simp [hne]

theorem claim10_witness :
    pathAndRest "diff --git a/x b/x".data ["--- a/x".data, "+++ /dev/null".data] =
        (['x'], []) ∧
      ∃ f, parseFileSection "diff --git a/x b/x".data
          ["--- a/x".data, "+++ /dev/null".data] = some f ∧ f.filePath = ['x'] :=
  claim10_nonmatching_plus "diff --git a/x b/x".data
    ["--- a/x".data, "+++ /dev/null".data] "+++ /dev/null".data []
    (by decide) (by decide) (by decide) ['x'] (by decide)

/-- C6: a synthetic untracked-file block (`diff --git a/<P> b/<P>`,
`new file mode 100644`, `--- /dev/null`, `+++ b/<P>`,
`@@ -0,0 +1,<N> @@`, then N body lines each starting with `+`) parses to
exactly one `DiffFile` whose single hunk consists solely of add lines:
`oldLineNo` is `none` throughout and `newLineNo` runs consecutively
from 1 to N. -/
theorem claim6_untracked_block (P ds : Line) (bs : List Line) (raw : String)
    (hP : P ≠ []) (hPdot : ∀ c ∈ P, isDot c = true)
    (hds : ds ≠ []) (hdsd : ∀ c ∈ ds, c.isDigit = true)
    (hN : digitsToNat ds = bs.length)
    (hbs : ∀ b ∈ bs, sw "+" b = true)
    (hraw : splitNl raw.data =
      ("diff --git a/".data ++ (P ++ (" b/".data ++ P))) ::
      "new file mode 100644".data ::
      "--- /dev/null".data ::
      ("+++ b/".data ++ P) ::
      ("@@ -0,0 +1,".data ++ (ds ++ " @@".data)) :: bs) :
    parseDiff raw =
      [DiffFile.mk ("diff --git a/".data ++ (P ++ (" b/".data ++ P))) P
        [DiffHunk.mk ("@@ -0,0 +1,".data ++ (ds ++ " @@".data))
          (List.zipWith (fun b k => DiffLine.mk .add (b.drop 1) none (some k)) bs
            (List.range' 1 bs.length))]] := by
  have hPe : P.isEmpty = false := by
    cases P with
    | nil => exact absurd rfl hP
    | cons c cs => rfl
  have hbsd : ∀ b ∈ bs, sw "diff --git" b = false := by
    intro b hb
    rcases sw_plus_shape (hbs b hb) with ⟨t, rfl⟩
    exact sw_diff_cons '+' t (by decide)
  have hbsa : ∀ b ∈ bs, sw "@@" b = false := by
    intro b hb
    rcases sw_plus_shape (hbs b hb) with ⟨t, rfl⟩
    exact sw_atat_cons '+' t (by decide)
  have hcap : plusCapture ("+++ b/".data ++ P) = some P := by
    unfold plusCapture
    rw [show (("+++ b/".data ++ P).drop 6) = P from
      List.drop_left' (by decide : ("+++ b/".data).length = 6)]
    rw [takeWhile_of_all hPdot]
    rw [show sw "+++ b/" ("+++ b/".data ++ P) = true from startsWithL_append _ _]
    rw [hPe]
    rfl
  have hpath : pathAndRest ("diff --git a/".data ++ (P ++ (" b/".data ++ P)))
      ("new file mode 100644".data :: "--- /dev/null".data ::
        ("+++ b/".data ++ P) ::
        ("@@ -0,0 +1,".data ++ (ds ++ " @@".data)) :: bs) =
      (P, ("@@ -0,0 +1,".data ++ (ds ++ " @@".data)) :: bs) := by
    unfold pathAndRest afterMeta
    rw [List.dropWhile_cons,
      if_pos (by decide : isMeta "new file mode 100644".data = true)]
    rw [List.dropWhile_cons,
      if_neg (by decide : ¬(isMeta "--- /dev/null".data = true))]
    rw [afterDashes_cons, if_pos (by decide : sw "--- " "--- /dev/null".data = true)]
    rw [plusStep_cons,
      if_pos (show sw "+++ " ("+++ b/".data ++ P) = true from
        startsWithL_extend (by decide) _)]
    rw [hcap]
  have hsecB : sections (fun l => sw "@@" l)
      (("@@ -0,0 +1,".data ++ (ds ++ " @@".data)) :: bs) =
      ([], [(("@@ -0,0 +1,".data ++ (ds ++ " @@".data)), bs)]) := by
    rw [sections_cons, sections_no_marker _ _ hbsa,
      if_pos (show sw "@@" ("@@ -0,0 +1,".data ++ (ds ++ " @@".data)) = true from
        startsWithL_extend (by decide) _)]
  have hrange : rangeSearch ("@@ -0,0 +1,".data ++ (ds ++ " @@".data)) =
      some (0, some 0, 1, some (digitsToNat ds)) :=
    rangeSearch_of_rangeAt (rangeAt_untracked ds hds hdsd)
  have hsection : parseFileSection
      ("diff --git a/".data ++ (P ++ (" b/".data ++ P)))
      ("new file mode 100644".data :: "--- /dev/null".data ::
        ("+++ b/".data ++ P) ::
        ("@@ -0,0 +1,".data ++ (ds ++ " @@".data)) :: bs) =
      some (DiffFile.mk ("diff --git a/".data ++ (P ++ (" b/".data ++ P))) P
        [DiffHunk.mk ("@@ -0,0 +1,".data ++ (ds ++ " @@".data))
          (List.zipWith (fun b k => DiffLine.mk .add (b.drop 1) none (some k)) bs
            (List.range' 1 bs.length))]) := by
    unfold parseFileSection hunkRegions
    rw [hpath]
    dsimp only
    rw [if_neg (by rw [hPe]; exact Bool.false_ne_true)]
    rw [hsecB]
    dsimp only [List.map]
    unfold mkHunk startNums
    rw [hrange]
    dsimp only
    rw [hunkLines_all_plus bs hbs 0 1]
  have hall : ∀ x ∈ ("new file mode 100644".data :: "--- /dev/null".data ::
      ("+++ b/".data ++ P) ::
      ("@@ -0,0 +1,".data ++ (ds ++ " @@".data)) :: bs),
      sw "diff --git" x = false := by
    intro x hx
    simp only [List.mem_cons] at hx
    rcases hx with rfl | rfl | rfl | rfl | hx
    · decide
    · decide
    · exact sw_diff_cons '+' _ (by decide)
    · exact sw_diff_cons '@' _ (by decide)
    · exact hbsd x hx
  unfold parseDiff
  rw [hraw]
  unfold parseDiffLines fileSections
  rw [sections_cons, sections_no_marker _ _ hall,
    if_pos (show sw "diff --git"
      ("diff --git a/".data ++ (P ++ (" b/".data ++ P))) = true from
      startsWithL_extend (by decide) _)]
  dsimp only
  rw [List.filterMap_cons]
  dsimp only
  rw [hsection]
  rfl

theorem claim6_witness :
    parseDiff "diff --git a/new.md b/new.md\nnew file mode 100644\n--- /dev/null\n+++ b/new.md\n@@ -0,0 +1,2 @@\n+alpha\n+beta" =
      [DiffFile.mk ("diff --git a/".data ++ ("new.md".data ++ (" b/".data ++ "new.md".data)))
        "new.md".data
        [DiffHunk.mk ("@@ -0,0 +1,".data ++ ("2".data ++ " @@".data))
          (List.zipWith (fun b k => DiffLine.mk .add (b.drop 1) none (some k))
            ["+alpha".data, "+beta".data]
            (List.range' 1 (["+alpha".data, "+beta".data]).length))]] :=
  claim6_untracked_block "new.md".data "2".data ["+alpha".data, "+beta".data]
    "diff --git a/new.md b/new.md\nnew file mode 100644\n--- /dev/null\n+++ b/new.md\n@@ -0,0 +1,2 @@\n+alpha\n+beta"
    (by decide) (by decide) (by decide) (by decide) (by decide) (by decide) (by decide)

end Nucleus
